import Mathlib

/-!
Verification development for the `surrealdb_functions` parsing engine.

The Rust sources are embedded shallowly: each `nom` combinator used by the
code is given an executable Lean counterpart over `List Char`, and each Rust
function becomes a Lean definition of the same name.  `IResult<&str, T>`
becomes `Option (List Char × T)`: `some (rest, value)` is a successful parse
and `none` a parse error (the grammar never uses `nom`'s unrecoverable
`Failure` variant, so one failure mode suffices).
-/

namespace SurrealFns

abbrev Input := List Char

abbrev Parser (α : Type) := Input → Option (Input × α)

/-- Convert a string literal to the character-list representation. -/
def str (s : String) : List Char := s.data

/-- The backquote delimiter character. -/
def backtick : Char := Char.ofNat 96

/-- The NUL character. -/
def nulChar : Char := Char.ofNat 0

/-- Whitespace as recognized by nom's `multispace0`/`multispace1`. -/
def isWs (c : Char) : Bool := c = ' ' || c = '\t' || c = '\r' || c = '\n'

/-- nom `character::complete::char`. -/
def pChar (c : Char) : Parser Unit := fun i =>
  match i with
  | [] => none
  | x :: rest => if x = c then some (rest, ()) else none

/-- nom `bytes::complete::tag`. -/
def tag (t : List Char) : Parser Unit := fun i =>
  if t.isPrefixOf i then some (i.drop t.length, ()) else none

/-- ASCII lower-casing, as used by nom's case-insensitive tag on ASCII input. -/
def lowerAscii (c : Char) : Char :=
  if 'A' ≤ c && c ≤ 'Z' then Char.ofNat (c.toNat + 32) else c

/-- nom `bytes::complete::tag_no_case` (ASCII case-insensitive). -/
def tag_no_case (t : List Char) : Parser Unit := fun i =>
  if (t.map lowerAscii).isPrefixOf (i.map lowerAscii) then
    some (i.drop t.length, ())
  else none

/-- nom `character::complete::multispace0`. -/
def multispace0 : Parser Unit := fun i => some (i.dropWhile isWs, ())

/-- nom `character::complete::multispace1`. -/
def multispace1 : Parser Unit := fun i =>
  match i with
  | [] => none
  | c :: _ => if isWs c then some (i.dropWhile isWs, ()) else none

/-- nom `bytes::complete::take_while1`. -/
def take_while1 (p : Char → Bool) : Parser (List Char) := fun i =>
  let pre := i.takeWhile p
  if pre.isEmpty then none else some (i.dropWhile p, pre)

/-- Split the input at the first occurrence of the needle `t`
(returning the part before it and the part starting with it). -/
def findSub (t : Input) : Input → Option (List Char × Input)
  | [] => if t.isPrefixOf ([] : Input) then some ([], []) else none
  | c :: rest =>
    if t.isPrefixOf (c :: rest) then some ([], c :: rest)
    else
      match findSub t rest with
      | some (pre, post) => some (c :: pre, post)
      | none => none

/-- nom `bytes::complete::take_until`: consume everything before the first
occurrence of the needle; fail if the needle never occurs. -/
def take_until (t : List Char) : Parser (List Char) := fun i =>
  match findSub t i with
  | some (pre, post) => some (post, pre)
  | none => none

/-- nom `character::complete::not_line_ending` (complete): consume up to the
first `\r` or `\n`; a lone `\r` not followed by `\n` is an error. -/
def not_line_ending : Parser (List Char) := fun i =>
  let pre := i.takeWhile (fun c => c ≠ '\n' && c ≠ '\r')
  let post := i.dropWhile (fun c => c ≠ '\n' && c ≠ '\r')
  match post with
  | '\r' :: rest =>
    match rest with
    | '\n' :: _ => some (post, pre)
    | _ => none
  | _ => some (post, pre)

/-- Loop of nom `multi::many1`: keep applying `f`; stop (successfully) at the
first failure; error out if an iteration consumes nothing. -/
def many1Aux (f : Parser α) : Nat → Input → List α → Option (Input × List α)
  | 0, _, _ => none
  | fuel + 1, i, acc =>
    match f i with
    | none => some (i, acc)
    | some (i1, o) =>
      if i1.length = i.length then none
      else many1Aux f fuel i1 (acc ++ [o])

/-- nom `multi::many1`: the first application must succeed. -/
def many1 (f : Parser α) : Parser (List α) := fun i =>
  match f i with
  | none => none
  | some (i1, o) => many1Aux f (i1.length + 1) i1 [o]

/-- Loop of nom `multi::separated_list0`/`separated_list1`: repeatedly parse a
separator then an element; stop at the first failure of either (backtracking
over a dangling separator); error out if the separator consumes nothing. -/
def sepListAux (sep : Parser Unit) (f : Parser α) :
    Nat → Input → List α → Option (Input × List α)
  | 0, _, _ => none
  | fuel + 1, i, acc =>
    match sep i with
    | none => some (i, acc)
    | some (i1, _) =>
      if i1.length = i.length then none
      else
        match f i1 with
        | none => some (i, acc)
        | some (i2, o) => sepListAux sep f fuel i2 (acc ++ [o])

/-- nom `multi::separated_list1`. -/
def separated_list1 (sep : Parser Unit) (f : Parser α) : Parser (List α) :=
  fun i =>
    match f i with
    | none => none
    | some (i1, o) => sepListAux sep f (i1.length + 1) i1 [o]

/-- nom `multi::separated_list0`. -/
def separated_list0 (sep : Parser Unit) (f : Parser α) : Parser (List α) :=
  fun i =>
    match f i with
    | none => some (i, [])
    | some (i1, o) => sepListAux sep f (i1.length + 1) i1 [o]

/-- nom `branch::alt` reduced to its binary step: try `p`, then `q`. -/
def pOr (p q : Parser α) : Parser α := fun i =>
  match p i with
  | some r => some r
  | none => q i

/-- nom `combinator::all_consuming`. -/
def all_consuming (f : Parser α) : Parser α := fun i =>
  match f i with
  | none => none
  | some (rest, v) => if rest.isEmpty then some ([], v) else none

/-- Rust `str::trim` (whitespace stripped from both ends). -/
def trim (l : List Char) : List Char :=
  ((l.dropWhile Char.isWhitespace).reverse.dropWhile Char.isWhitespace).reverse

/-! ### `src/parser/comment.rs` — the lexical layer -/

/-- `comment.rs::block`: a `/* ... */` comment (with surrounding whitespace),
yielding the trimmed body. -/
def block : Parser (List Char) := fun i => do
  let (i, _) ← multispace0 i
  let (i, _) ← pChar '/' i
  let (i, _) ← pChar '*' i
  let (i, comment) ← take_until (str "*/") i
  let (i, _) ← pChar '*' i
  let (i, _) ← pChar '/' i
  let (i, _) ← multispace0 i
  some (i, trim comment)

/-- `comment.rs::slash`: a `//` line comment, yielding the trimmed body. -/
def slash : Parser (List Char) := fun i => do
  let (i, _) ← multispace0 i
  let (i, _) ← pChar '/' i
  let (i, _) ← pChar '/' i
  let (i, comment) ← not_line_ending i
  some (i, trim comment)

/-- `comment.rs::dash`: a `--` line comment, yielding the trimmed body. -/
def dash : Parser (List Char) := fun i => do
  let (i, _) ← multispace0 i
  let (i, _) ← pChar '-' i
  let (i, _) ← pChar '-' i
  let (i, comment) ← not_line_ending i
  some (i, trim comment)

/-- `comment.rs::hash`: a `#` line comment, yielding the trimmed body. -/
def hash : Parser (List Char) := fun i => do
  let (i, _) ← multispace0 i
  let (i, _) ← pChar '#' i
  let (i, comment) ← not_line_ending i
  some (i, trim comment)

/-- One comment form, in `comment.rs`'s alternative order. -/
def commentForm : Parser (List Char) :=
  pOr block (pOr slash (pOr dash hash))

/-- `comment.rs::comment`: one or more comments amid whitespace, discarded. -/
def comment : Parser Unit := fun i => do
  let (i, _) ← multispace0 i
  let (i, _) ← many1 commentForm i
  let (i, _) ← multispace0 i
  some (i, ())

/-- `comment.rs::comment_wanted`: one or more comments amid whitespace,
keeping the trimmed bodies. -/
def comment_wanted : Parser (List (List Char)) := fun i => do
  let (i, _) ← multispace0 i
  let (i, comments) ← many1 commentForm i
  let (i, _) ← multispace0 i
  some (i, comments)

/-- `comment.rs::blank`: any (possibly empty) run of whitespace. -/
def blank : Parser Unit := fun i => do
  let (i, _) ← multispace0 i
  some (i, ())

/-- `comment.rs::space`: at least one whitespace character. -/
def space : Parser Unit := fun i => do
  let (i, _) ← multispace1 i
  some (i, ())

/-- `comment.rs::blank_`: like `blank` but yielding an empty comment list. -/
def blankKeep : Parser (List (List Char)) := fun i => do
  let (i, _) ← multispace0 i
  some (i, [])

/-- `comment.rs::mightbespace`: optional whitespace/comments, never fails. -/
def mightbespace : Parser Unit := pOr comment blank

/-- `comment.rs::shouldbespace`: mandatory separation — a comment or at least
one whitespace character. -/
def shouldbespace : Parser Unit := pOr comment space

/-- `comment.rs::mightbecomment`: capture leading comments, or nothing. -/
def mightbecomment : Parser (List (List Char)) :=
  pOr comment_wanted blankKeep

/-! ### `src/parser/common.rs` — shared token parsers -/

/-- `common.rs::val_char`: ASCII alphanumeric or underscore. -/
def val_char (c : Char) : Bool := c.isAlphanum || c = '_'

/-- `common.rs::colons`: one or more semicolons amid optional
whitespace/comments. -/
def colons : Parser Unit := fun i => do
  let (i, _) ← mightbespace i
  let (i, _) ← many1 (pChar ';') i
  let (i, _) ← mightbespace i
  some (i, ())

/-- `common.rs::commas`: a comma amid optional whitespace/comments. -/
def commas : Parser Unit := fun i => do
  let (i, _) ← mightbespace i
  let (i, _) ← pChar ',' i
  let (i, _) ← mightbespace i
  some (i, ())

/-- `common.rs::verbar`: a pipe amid optional whitespace/comments. -/
def verbar : Parser Unit := fun i => do
  let (i, _) ← mightbespace i
  let (i, _) ← pChar '|' i
  let (i, _) ← mightbespace i
  some (i, ())

/-- `common.rs::openbraces`: `{` then optional whitespace/comments. -/
def openbraces : Parser Unit := fun i => do
  let (i, _) ← pChar '{' i
  let (i, _) ← mightbespace i
  some (i, ())

/-- `common.rs::closebraces`: optional whitespace/comments then `}`. -/
def closebraces : Parser Unit := fun i => do
  let (i, _) ← mightbespace i
  let (i, _) ← pChar '}' i
  some (i, ())

/-- `common.rs::openchevron`. -/
def openchevron : Parser Unit := fun i => do
  let (i, _) ← pChar '<' i
  let (i, _) ← mightbespace i
  some (i, ())

/-- `common.rs::closechevron`. -/
def closechevron : Parser Unit := fun i => do
  let (i, _) ← mightbespace i
  let (i, _) ← pChar '>' i
  some (i, ())

/-- `common.rs::take_u64`: a run of ASCII digits read as a number (the run
must be nonempty for Rust's `str::parse::<u64>` to succeed; the values in
scope here stay far below `u64::MAX`, so overflow is not modelled). -/
def take_u64 : Parser Nat := fun i =>
  let pre := i.takeWhile Char.isDigit
  if pre.isEmpty then none
  else some (i.dropWhile Char.isDigit, pre.foldl (fun n c => n * 10 + (c.toNat - 48)) 0)

/-! ### `src/parser/escape.rs` — identifier encoding -/

/-- Rust `str::replace` with a single-character needle. -/
def replaceAll (s : List Char) (r : Char) (e : List Char) : List Char :=
  s.flatMap fun c => if c = r then e else [c]

/-- `escape.rs::escape_numeric`: leave `s` bare when every character is a
bare-identifier character and not all characters are digits; otherwise wrap
in `l`/`r`, rewriting embedded `r` to `e`.  (The Rust loops over bytes; on
the byte level a character is allowed iff it is ASCII alphanumeric or `_`,
which coincides with `val_char` on characters.) -/
def escape_numeric (s : List Char) (l r : Char) (e : List Char) : List Char :=
  if s.all val_char && !s.all Char.isDigit then s
  else l :: replaceAll s r e ++ [r]

/-- `escape.rs::escape_ident`: the backtick instance of `escape_numeric`. -/
def escape_ident (s : List Char) : List Char :=
  escape_numeric s backtick backtick ['\\', backtick]

/-! ### `src/parser/ident.rs` — the identifier layer -/

/-- `ident.rs::BRACKET_L`. -/
def bracketL : Char := '⟨'

/-- `ident.rs::BRACKET_R`. -/
def bracketR : Char := '⟩'

/-- The character class excluded by `is_not(BACKTICK_ESC_NUL)`:
backtick, backslash and NUL. -/
def backtickEscNul (c : Char) : Bool := c = backtick || c = '\\' || c = nulChar

/-- The escape map of `ident.rs::ident_backtick`'s `escaped_transform`. -/
def backtickEscape (c : Char) : Option Char :=
  if c = '\\' then some '\\'
  else if c = backtick then some backtick
  else if c = '/' then some '/'
  else if c = 'b' then some (Char.ofNat 8)
  else if c = 'f' then some (Char.ofNat 12)
  else if c = 'n' then some '\n'
  else if c = 'r' then some '\r'
  else if c = 't' then some '\t'
  else none

/-- Loop of nom `bytes::complete::escaped_transform` with `is_not` chunks:
copy maximal runs of ordinary characters, rewrite `\\x` escapes through the
escape map (failing on an unknown or dangling escape), and stop in front of
any other excluded character. -/
def escTransAux (excl : Char → Bool) (esc : Char → Option Char) :
    Nat → Input → List Char → Option (Input × List Char)
  | 0, _, _ => none
  | _ + 1, [], acc => some ([], acc)
  | fuel + 1, c :: rest, acc =>
    if !excl c then
      escTransAux excl esc fuel ((c :: rest).dropWhile (fun x => !excl x))
        (acc ++ (c :: rest).takeWhile (fun x => !excl x))
    else if c = '\\' then
      match rest with
      | [] => none
      | e :: rest2 =>
        match esc e with
        | some ch => escTransAux excl esc fuel rest2 (acc ++ [ch])
        | none => none
    else some (c :: rest, acc)

/-- nom `bytes::complete::escaped_transform(is_not(excl), '\\', esc)`. -/
def escaped_transform (excl : Char → Bool) (esc : Char → Option Char) :
    Parser (List Char) := fun i =>
  escTransAux excl esc (i.length + 1) i []

/-- `ident.rs::Ident`: a decoded identifier. -/
structure Ident where
  val : List Char
  deriving Repr, DecidableEq

/-- `ident.rs::ident_default`: a bare identifier. -/
def ident_default : Parser (List Char) := take_while1 val_char

/-- `ident.rs::ident_backtick`: a backtick-quoted identifier with backslash
escapes, decoded. -/
def ident_backtick : Parser (List Char) := fun i => do
  let (i, _) ← pChar backtick i
  let (i, v) ← escaped_transform backtickEscNul backtickEscape i
  let (i, _) ← pChar backtick i
  some (i, v)

/-- `ident.rs::ident_brackets`: a `⟨...⟩`-quoted identifier, no escapes
(`is_not` also excludes NUL and requires a nonempty body). -/
def ident_brackets : Parser (List Char) := fun i => do
  let (i, _) ← pChar bracketL i
  let (i, v) ← take_while1 (fun c => !(c = bracketR || c = nulChar)) i
  let (i, _) ← pChar bracketR i
  some (i, v)

/-- `ident.rs::ident_raw`: the three identifier forms in priority order. -/
def ident_raw : Parser (List Char) :=
  pOr ident_default (pOr ident_backtick ident_brackets)

/-- `ident.rs::ident`. -/
def ident : Parser Ident := fun i => do
  let (i, v) ← ident_raw i
  some (i, Ident.mk v)

/-- `ident.rs::multikeep`: a `::`-separated nonempty path of bare segments. -/
def multikeep : Parser (List (List Char)) :=
  separated_list1 (tag (str "::")) (take_while1 val_char)

/-! ### `src/parser/table.rs` — the table layer -/

/-- `table.rs::Table`: a decoded table name. -/
structure Table where
  val : List Char
  deriving Repr, DecidableEq

/-- `table.rs::table`. -/
def table : Parser Table := fun i => do
  let (i, v) ← ident_raw i
  some (i, Table.mk v)

/-- `table.rs::tables`: a comma-separated nonempty table list. -/
def tables : Parser (List Table) := separated_list1 commas table

/-! ### The type grammar -/

/-- Modelled from the spec: `src/parser/kind.rs` is declared by
`src/parser/mod.rs` but missing from the sources, so the closed `Kind` sum
type follows §3 of the spec: primitives, `Geometry` over subtype tags,
`Record` over a table list, `Option`/`Array`/`Set` wrappers (the latter two
with an optional length bound) and `Either` over a kind list. -/
inductive Kind where
  | any
  | bool
  | bytes
  | datetime
  | duration
  | float
  | int
  | decimal
  | number
  | string
  | uuid
  | object
  | point
  | geometry (subtypes : List (List Char))
  | record (tables : List Table)
  | option (inner : Kind)
  | array (inner : Kind) (bound : Option Nat)
  | set (inner : Kind) (bound : Option Nat)
  | either (kinds : List Kind)
  deriving Repr

/-- A pipe-separated nonempty table list (the record form of §4.4). -/
def tablesPipe : Parser (List Table) := separated_list1 verbar table

/-- A pipe-separated nonempty list of geometry subtype tags. -/
def geometryTags : Parser (List (List Char)) :=
  separated_list1 verbar (take_while1 val_char)

/-- A keyword kind: a case-insensitive tag mapped to its `Kind` variant. -/
def kindKeyword (kw : String) (k : Kind) : Parser Kind := fun i =>
  (tag_no_case (str kw) i).map fun r => (r.1, k)

/-- The `option<Kind>` form, parameterized by the recursive kind parser. -/
def kindOption (rec : Parser Kind) : Parser Kind := fun i => do
  let (i, _) ← tag_no_case (str "option") i
  let (i, _) ← openchevron i
  let (i, k) ← rec i
  let (i, _) ← closechevron i
  some (i, Kind.option k)

/-- The optional `, N` length bound of `array`/`set`. -/
def kindBound : Parser (Option Nat) := fun i =>
  match (do
      let (i, _) ← commas i
      let (i, n) ← take_u64 i
      some (i, Option.some n) : Option (Input × Option Nat)) with
  | some r => some r
  | none => some (i, Option.none)

/-- The `array<Kind>` / `array<Kind, N>` form. -/
def kindArray (rec : Parser Kind) : Parser Kind := fun i => do
  let (i, _) ← tag_no_case (str "array") i
  let (i, _) ← openchevron i
  let (i, k) ← rec i
  let (i, n) ← kindBound i
  let (i, _) ← closechevron i
  some (i, Kind.array k n)

/-- The `set<Kind>` / `set<Kind, N>` form. -/
def kindSet (rec : Parser Kind) : Parser Kind := fun i => do
  let (i, _) ← tag_no_case (str "set") i
  let (i, _) ← openchevron i
  let (i, k) ← rec i
  let (i, n) ← kindBound i
  let (i, _) ← closechevron i
  some (i, Kind.set k n)

/-- The `record<T1 | T2 | ...>` form. -/
def kindRecord : Parser Kind := fun i => do
  let (i, _) ← tag_no_case (str "record") i
  let (i, _) ← openchevron i
  let (i, ts) ← tablesPipe i
  let (i, _) ← closechevron i
  some (i, Kind.record ts)

/-- The `either<K1 | K2 | ...>` form (at least two kinds). -/
def kindEither (rec : Parser Kind) : Parser Kind := fun i => do
  let (i, _) ← tag_no_case (str "either") i
  let (i, _) ← openchevron i
  let (i, ks) ← separated_list1 verbar rec i
  let (i, _) ← closechevron i
  if 2 ≤ ks.length then some (i, Kind.either ks) else none

/-- The `geometry<tag1 | tag2 | ...>` form. -/
def kindGeometry : Parser Kind := fun i => do
  let (i, _) ← tag_no_case (str "geometry") i
  let (i, _) ← openchevron i
  let (i, gs) ← geometryTags i
  let (i, _) ← closechevron i
  some (i, Kind.geometry gs)

/-- Modelled from the spec: the recursive `Kind` parser of §4.4
(`src/parser/kind.rs` is missing from the sources).  Keywords are matched
case-insensitively; composite forms use angle brackets, `array`/`set` take an
optional `, N` bound, `record`/`either`/`geometry` take pipe-separated
element lists.  Fuelled to bound the recursion depth by the input length. -/
def kindStep (rec : Parser Kind) : Parser Kind :=
  pOr (kindOption rec) (pOr (kindArray rec)
    (pOr (kindSet rec) (pOr kindRecord
    (pOr (kindEither rec) (pOr kindGeometry
    (pOr (kindKeyword "any" Kind.any) (pOr (kindKeyword "bool" Kind.bool)
    (pOr (kindKeyword "bytes" Kind.bytes)
    (pOr (kindKeyword "datetime" Kind.datetime)
    (pOr (kindKeyword "duration" Kind.duration)
    (pOr (kindKeyword "decimal" Kind.decimal)
    (pOr (kindKeyword "float" Kind.float) (pOr (kindKeyword "int" Kind.int)
    (pOr (kindKeyword "number" Kind.number)
    (pOr (kindKeyword "string" Kind.string)
    (pOr (kindKeyword "uuid" Kind.uuid)
    (pOr (kindKeyword "object" Kind.object)
    (kindKeyword "point" Kind.point))))))))))))))))))

/-- The fuelled fixed point of `kindStep`. -/
def kindFuel : Nat → Parser Kind
  | 0, _ => none
  | fuel + 1, i => kindStep (kindFuel fuel) i

/-- The entry point of the type grammar. -/
def kind : Parser Kind := fun i => kindFuel (i.length + 1) i

/-! ### `src/parser/mod.rs` — the statement grammar -/

/-- `mod.rs::DefineFunctionStatement`. -/
structure DefineFunctionStatement where
  comments : List (List Char)
  name : List (List Char)
  args : List (Ident × Kind)
  deriving Repr

/-- `mod.rs`'s `impl Hash for DefineFunctionStatement`: the hasher state is
fed only from the `name` field.  The statement's contribution to any hasher
is abstracted as a function of the data actually written to the state. -/
def DefineFunctionStatement.hashWith (hashName : List (List Char) → Nat → Nat)
    (s : DefineFunctionStatement) (state : Nat) : Nat :=
  hashName s.name state

/-- A concrete stand-in hasher (polynomial over segment characters), used to
exercise `hashWith` on explicit statements. -/
def polyHashName (name : List (List Char)) (state : Nat) : Nat :=
  name.foldl (fun st seg => seg.foldl (fun a c => a * 31 + c.toNat) (st * 31 + 7)) state

/-- `mod.rs::ignored_block`: the discarded function body. -/
def ignored_block : Parser Unit := fun i => do
  let (i, _) ← openbraces i
  let (i, _) ← take_until (str "\x7d") i
  let (i, _) ← closebraces i
  some (i, ())

/-- One `$name: kind` parameter (the closure inside `mod.rs::function`). -/
def argParser : Parser (Ident × Kind) := fun i => do
  let (i, _) ← pChar '$' i
  let (i, name) ← ident i
  let (i, _) ← mightbespace i
  let (i, _) ← pChar ':' i
  let (i, _) ← mightbespace i
  let (i, k) ← kind i
  some (i, (name, k))

/-- The keyword prefix of `mod.rs::function`:
`DEFINE`, separation, `FUNCTION`, separation, then the literal `fn::`. -/
def functionKeywords : Parser Unit := fun i => do
  let (i, _) ← tag_no_case (str "DEFINE") i
  let (i, _) ← shouldbespace i
  let (i, _) ← tag_no_case (str "FUNCTION") i
  let (i, _) ← shouldbespace i
  let (i, _) ← tag (str "fn::") i
  some (i, ())

/-- The parenthesized parameter list of `mod.rs::function`. -/
def functionParams : Parser (List (Ident × Kind)) := fun i => do
  let (i, _) ← pChar '(' i
  let (i, _) ← mightbespace i
  let (i, args) ← separated_list0 commas argParser i
  let (i, _) ← mightbespace i
  let (i, _) ← pChar ')' i
  some (i, args)

/-- `mod.rs::function`: one `DEFINE FUNCTION fn::...` statement. -/
def function : Parser DefineFunctionStatement := fun i => do
  let (i, comments) ← mightbecomment i
  let (i, _) ← mightbespace i
  let (i, _) ← functionKeywords i
  let (i, name) ← multikeep i
  let (i, _) ← mightbespace i
  let (i, args) ← functionParams i
  let (i, _) ← mightbespace i
  let (i, _) ← ignored_block i
  some (i, DefineFunctionStatement.mk comments name args)

/-- `mod.rs::functions`: the statement list grammar. -/
def functions : Parser (List DefineFunctionStatement) := fun i => do
  let (i, _) ← multispace0 i
  let (i, v) ← separated_list1 colons function i
  let (i, _) ← colons i
  some (i, v)

/-- `lib.rs::parse_surrealql_file` after file loading:
`all_consuming(parser::functions)` on the file contents. -/
def parse_surrealql_contents : Parser (List DefineFunctionStatement) :=
  all_consuming functions

/-! ### `src/file.rs` — the path resolver -/

/-- The two `file.rs` error values, with their payloads. -/
inductive ResolveError where
  | missingVariable (var : List Char)
  | unableToParseVariable (rest : List Char)
  deriving Repr, DecidableEq

/-- A valid leading identifier character (`file.rs::parse_identifier`,
first predicate call): ASCII letter or underscore. -/
def idHead (c : Char) : Bool := c = '_' || c.isAlpha

/-- A valid non-leading identifier character (`file.rs::parse_identifier`,
later predicate calls): ASCII letter, digit or underscore. -/
def idCont (c : Char) : Bool := c = '_' || c.isAlpha || c.isDigit

/-- `file.rs::parse_identifier`: the longest identifier prefix (nonempty,
digits rejected only in leading position) and the remaining text. -/
def parse_identifier (text : List Char) : Option (List Char × List Char) :=
  match text with
  | [] => none
  | c :: cs =>
    if idHead c then some (c :: cs.takeWhile idCont, cs.dropWhile idCont)
    else none

/-- An auxiliary length bound for the resolver's termination. -/
theorem parse_identifier_rest_lt {t v r : List Char}
    (h : parse_identifier t = some (v, r)) : r.length < t.length := by
  match t with
  | [] => simp [parse_identifier] at h
  | c :: cs =>
    simp only [parse_identifier] at h
    by_cases hc : idHead c
    · simp only [hc, if_pos, Option.some.injEq, Prod.mk.injEq] at h
      obtain ⟨-, hr⟩ := h
      subst hr
      exact Nat.lt_succ_of_le (List.dropWhile_suffix idCont).length_le
    · simp [hc] at h

/-- The loop of `file.rs::resolve_path`: scan `unprocessed` for `$`,
substituting resolved variables into the accumulator `resolved`. -/
def resolve_path_loop (get_env : List Char → Option (List Char))
    (resolved : List Char) (unprocessed : List Char) :
    Except ResolveError (List Char) :=
  match h : unprocessed.dropWhile (· ≠ '$') with
  | [] => .ok (resolved ++ unprocessed)
  | d :: t =>
    match h2 : parse_identifier t with
    | some (var, rest) =>
      match get_env var with
      | some value =>
        resolve_path_loop get_env
          (resolved ++ unprocessed.takeWhile (· ≠ '$') ++ value) rest
      | none => .error (.missingVariable var)
    | none => .error (.unableToParseVariable (d :: t))
termination_by unprocessed.length
decreasing_by
  calc rest.length < t.length := parse_identifier_rest_lt h2
    _ < (d :: t).length := by simp
    _ ≤ unprocessed.length := by
        rw [← h]
        exact (List.dropWhile_suffix fun c => c ≠ '$').length_le

/-- `file.rs::resolve_path`. -/
def resolve_path (raw : List Char) (get_env : List Char → Option (List Char)) :
    Except ResolveError (List Char) :=
  resolve_path_loop get_env [] raw

/-! ### Auxiliary predicates used by the theorem statements -/

/-- Whether the input starts with a whitespace character. -/
def headIsWs : Input → Bool
  | [] => false
  | c :: _ => isWs c

/-! ### General lemmas about the combinators -/

theorem mightbespace_no_ws_no_comment {i : Input} (h1 : headIsWs i = false)
    (h2 : comment i = none) : mightbespace i = some (i, ()) := by
  have hdrop : i.dropWhile isWs = i := by
    cases i with
    | nil => rfl
    | cons c y =>
      simp only [headIsWs] at h1
      simp [List.dropWhile_cons_of_neg, h1]
  simp [mightbespace, pOr, h2, blank, multispace0, hdrop]

theorem comment_none_head {c : Char} {y : Input} (h1 : isWs c = false)
    (h2 : c ≠ '/') (h3 : c ≠ '-') (h4 : c ≠ '#') : comment (c :: y) = none := by
  have hdrop : (c :: y).dropWhile isWs = c :: y := by
    simp [List.dropWhile_cons_of_neg, h1]
  have hform : commentForm (c :: y) = none := by
    simp [commentForm, pOr, block, slash, dash, hash, multispace0, hdrop,
      pChar, h2, h3, h4]
  simp [comment, multispace0, hdrop, many1, hform]

theorem mightbespace_plain_head {c : Char} {y : Input} (h1 : isWs c = false)
    (h2 : c ≠ '/') (h3 : c ≠ '-') (h4 : c ≠ '#') :
    mightbespace (c :: y) = some (c :: y, ()) :=
  mightbespace_no_ws_no_comment (by simp [headIsWs, h1])
    (comment_none_head h1 h2 h3 h4)

theorem findSub_first {c : Char} {x y : Input} (h : c ∉ x) :
    findSub [c] (x ++ c :: y) = some (x, c :: y) := by
  induction x with
  | nil => simp [findSub, List.isPrefixOf]
  | cons a x ih =>
    have hac : ¬(c == a) := by
      simp only [List.mem_cons, not_or] at h
      simp [beq_iff_eq]
      exact fun he => h.1 he
    have hx : c ∉ x := by
      simp only [List.mem_cons, not_or] at h
      exact h.2
    simp [findSub, List.isPrefixOf, hac, ih hx]

/-! ### Claim C1 -/

/-- C1 (counterexample): the claim asserts that a statement whose `fn::`
directly abuts the keyword FUNCTION parses successfully; it does not — the
grammar places a mandatory-separation parser between `FUNCTION` and `fn::`,
so the abutting statement fails. -/
theorem c1_abutting_fn_fails :
    function (str "DEFINE FUNCTIONfn::a() \x7b\x7d") = none := by rfl

/-- C1 (amended): after the case-insensitive keyword FUNCTION, mandatory
separation (whitespace or a comment) is required before the literal prefix
`fn::`; an abutting `fn::` fails to parse, while `fn::` separated by a space
or by a comment parses successfully. -/
theorem c1_function_separation :
    function (str "DEFINE FUNCTIONfn::a() \x7b\x7d") = none ∧
    function (str "DEFINE FUNCTION fn::a() \x7b\x7d") =
      some ([], ⟨[], [str "a"], []⟩) ∧
    function (str "DEFINE FUNCTION/* note */fn::a() \x7b\x7d") =
      some ([], ⟨[], [str "a"], []⟩) := by
  refine ⟨rfl, rfl, rfl⟩

/-! ### Claim C7 -/

/-- C7 (counterexample): the claim quantifies over every string without the
closing glyph, but the empty string fails — the bracket form's body parser
(`is_not`) requires at least one character, so `⟨⟩` is not an identifier. -/
theorem c7_empty_brackets_fail :
    ident_raw (bracketL :: (([] : List Char) ++ [bracketR])) ≠
      some ([], ([] : List Char)) := by decide

/-- C7 (amended): the bracket-delimited identifier form has no escaping: for
every nonempty string without the closing glyph and without NUL, wrapping it
in the bracket glyphs and parsing yields exactly the string (the body parser
rejects an empty body and stops at NUL, which the claim overlooked). -/
theorem c7_bracket_literal (s : List Char) (hne : s ≠ [])
    (hr : bracketR ∉ s) (hn : nulChar ∉ s) :
    ident_raw (bracketL :: (s ++ [bracketR])) = some ([], s) := by
  have hval : val_char bracketL = false := by decide
  have hdef : ident_default (bracketL :: (s ++ [bracketR])) = none := by
    simp [ident_default, take_while1, List.takeWhile_cons_of_neg, hval,
      List.isEmpty]
  have hbt : ident_backtick (bracketL :: (s ++ [bracketR])) = none := by
    have : ¬(bracketL = backtick) := by decide
    simp [ident_backtick, pChar, this]
  have hpred : ∀ c ∈ s, (!(c = bracketR) && !(c = nulChar)) = true := by
    intro c hc
    have h1 : c ≠ bracketR := fun he => hr (he ▸ hc)
    have h2 : c ≠ nulChar := fun he => hn (he ▸ hc)
    simp [h1, h2]
  have htake : (s ++ [bracketR]).takeWhile (fun c => !(c = bracketR) && !(c = nulChar)) = s := by
    rw [List.takeWhile_append_of_pos hpred]
    simp
  have hdrop : (s ++ [bracketR]).dropWhile (fun c => !(c = bracketR) && !(c = nulChar)) = [bracketR] := by
    rw [List.dropWhile_append_of_pos hpred]
    simp
  have hsne : s.isEmpty = false := by
    cases s with
    | nil => exact absurd rfl hne
    | cons a t => rfl
  have htw : take_while1 (fun c => !(c = bracketR) && !(c = nulChar))
      (s ++ [bracketR]) = some ([bracketR], s) := by
    unfold take_while1
    rw [htake, hdrop]
    simp [hsne]
  simp only [ident_raw, pOr, hdef, hbt]
  simp [ident_brackets, pChar, htw]

/-- C7 (witness): the bracket round-trip at the concrete string `test`. -/
theorem c7_bracket_literal_witness :
    ident_raw (bracketL :: (str "test" ++ [bracketR])) = some ([], str "test") :=
  c7_bracket_literal (str "test") (by decide) (by decide) (by decide)

/-! ### Claim C4 -/

/-- C4 (counterexample): the claim says the body block consumes the opening
brace, then all characters up to the first closing brace, then that closing
brace — predicting remainder `\n}` on the input `{#}\n}`.  In fact
`openbraces` also swallows whitespace/comments after `{`, and a `#` comment
there swallows the first `}`, so the whole input is consumed instead. -/
theorem c4_comment_swallows_first_brace :
    ignored_block (str "\x7b#\x7d\n\x7d") = some ([], ()) ∧
    ignored_block (str "\x7b#\x7d\n\x7d") ≠ some (str "\n\x7d", ()) := by
  refine ⟨rfl, by decide⟩

/-- C4 (amended): the body block consumes an opening brace and any
immediately following whitespace/comments, then all characters up to the
first closing brace of what remains, then that closing brace; the parsed
statement retains none of the body's contents (two statements differing only
in their body parse to the same value). -/
theorem c4_body_discarded :
    (∀ i j x y, openbraces i = some (j, ()) → j = x ++ '\x7d' :: y →
      '\x7d' ∉ x → ignored_block i = some (y, ())) ∧
    function (str "DEFINE FUNCTION fn::f() \x7bRETURN 1;\x7d") =
      function (str "DEFINE FUNCTION fn::f() \x7bxyz\x7d") ∧
    function (str "DEFINE FUNCTION fn::f() \x7bxyz\x7d") =
      some ([], ⟨[], [str "f"], []⟩) := by
  refine ⟨?_, rfl, rfl⟩
  intro i j x y hopen hj hx
  have hfind : findSub (str "\x7d") j = some (x, '\x7d' :: y) := by
    rw [hj]
    exact findSub_first hx
  have hclose : closebraces ('\x7d' :: y) = some (y, ()) := by
    have hmb : mightbespace ('\x7d' :: y) = some ('\x7d' :: y, ()) :=
      mightbespace_plain_head (by decide) (by decide) (by decide) (by decide)
    simp [closebraces, hmb, pChar]
  simp [ignored_block, hopen, take_until, hfind, hclose]

/-- C4 (witness): the general body-block characterization applied to the
concrete input `{RETURN 1;} rest`. -/
theorem c4_body_discarded_witness :
    ignored_block (str "\x7bRETURN 1;\x7d rest") = some (str " rest", ()) :=
  c4_body_discarded.1 (str "\x7bRETURN 1;\x7d rest") (str "RETURN 1;\x7d rest")
    (str "RETURN 1;") (str " rest") (by decide) (by decide) (by decide)

/-! ### Claim C8 -/

/-- C8: the optional skip (`mightbespace`) succeeds on every input and
consumes nothing when neither whitespace nor a comment is at the cursor; the
mandatory separation (`shouldbespace`) fails exactly when neither at least
one whitespace character nor a comment is present at the cursor. -/
theorem c8_separation_primitives :
    (∀ i : Input, (mightbespace i).isSome) ∧
    (∀ i : Input, headIsWs i = false → comment i = none →
      mightbespace i = some (i, ())) ∧
    (∀ i : Input, shouldbespace i = none ↔
      (headIsWs i = false ∧ comment i = none)) := by
  refine ⟨?_, ?_, ?_⟩
  · intro i
    unfold mightbespace pOr
    cases hc : comment i with
    | none => simp [blank, multispace0]
    | some r => simp
  · intro i h1 h2
    exact mightbespace_no_ws_no_comment h1 h2
  · intro i
    have hspace : space i = none ↔ headIsWs i = false := by
      cases i with
      | nil => simp [space, multispace1, headIsWs]
      | cons c y =>
        simp only [space, multispace1, headIsWs]
        by_cases hw : isWs c
        · simp [hw]
        · simp [hw]
    unfold shouldbespace pOr
    cases hc : comment i with
    | none => simp [hspace, hc]
    | some r => simp [hc]

/-- C8 (witness): at the cursor `x...` there is neither whitespace nor a
comment, so the optional skip consumes nothing and the mandatory separation
fails; on a space and on a comment the mandatory separation succeeds. -/
theorem c8_separation_primitives_witness :
    mightbespace (str "x") = some (str "x", ()) ∧
    (shouldbespace (str "x") = none ↔
      (headIsWs (str "x") = false ∧ comment (str "x") = none)) :=
  ⟨c8_separation_primitives.2.1 (str "x") (by decide) (by decide),
    c8_separation_primitives.2.2 (str "x")⟩

/-! ### Claim C10 -/

/-- C10: the `Hash` implementation of `DefineFunctionStatement` feeds only
the `name` field to the hasher state, so any two statements with equal name
sequences hash equally under every hasher, whatever their comments or
parameter lists. -/
theorem c10_hash_only_name
    (hashName : List (List Char) → Nat → Nat)
    (s t : DefineFunctionStatement) (state : Nat) (h : s.name = t.name) :
    s.hashWith hashName state = t.hashWith hashName state := by
  simp [DefineFunctionStatement.hashWith, h]

/-- C10 (witness): two statements sharing the name `f` but with different
comments and parameter lists hash identically under the concrete hasher. -/
theorem c10_hash_only_name_witness :
    DefineFunctionStatement.hashWith polyHashName
      ⟨[str "doc"], [str "f"], [(Ident.mk (str "x"), Kind.string)]⟩ 0 =
    DefineFunctionStatement.hashWith polyHashName ⟨[], [str "f"], []⟩ 0 :=
  c10_hash_only_name polyHashName
    ⟨[str "doc"], [str "f"], [(Ident.mk (str "x"), Kind.string)]⟩
    ⟨[], [str "f"], []⟩ 0 rfl

/-! ### Lemmas about the path resolver -/

theorem loop_no_dollar (f : List Char → Option (List Char)) (a u : List Char)
    (h : u.dropWhile (fun c => c ≠ '$') = []) :
    resolve_path_loop f a u = .ok (a ++ u) := by
  rw [resolve_path_loop.eq_def]
  split
  · rfl
  · next d t heq =>
      rw [h] at heq
      cases heq

theorem loop_subst (f : List Char → Option (List Char)) (a u : List Char)
    {d : Char} {t v r w : List Char}
    (h : u.dropWhile (fun c => c ≠ '$') = d :: t)
    (h2 : parse_identifier t = some (v, r)) (h3 : f v = some w) :
    resolve_path_loop f a u =
      resolve_path_loop f (a ++ u.takeWhile (fun c => c ≠ '$') ++ w) r := by
  rw [resolve_path_loop.eq_def]
  split
  · next heq =>
      rw [h] at heq
      cases heq
  · next d' t' heq =>
      rw [h] at heq
      injection heq with hd ht
      subst hd ht
      split
      · next v' r' heq2 =>
          rw [h2] at heq2
          injection heq2 with hvr
          injection hvr with hv hr
          subst hv hr
          split
          · next val' heq3 =>
              rw [h3] at heq3
              injection heq3 with hval
              subst hval
              rfl
          · next heq3 =>
              rw [h3] at heq3
              cases heq3
      · next heq2 =>
          rw [h2] at heq2
          cases heq2

theorem loop_missing (f : List Char → Option (List Char)) (a u : List Char)
    {d : Char} {t v r : List Char}
    (h : u.dropWhile (fun c => c ≠ '$') = d :: t)
    (h2 : parse_identifier t = some (v, r)) (h3 : f v = none) :
    resolve_path_loop f a u = .error (.missingVariable v) := by
  rw [resolve_path_loop.eq_def]
  split
  · next heq =>
      rw [h] at heq
      cases heq
  · next d' t' heq =>
      rw [h] at heq
      injection heq with hd ht
      subst hd ht
      split
      · next v' r' heq2 =>
          rw [h2] at heq2
          injection heq2 with hvr
          injection hvr with hv hr
          subst hv hr
          split
          · next val' heq3 =>
              rw [h3] at heq3
              cases heq3
          · next heq3 => rfl
      · next heq2 =>
          rw [h2] at heq2
          cases heq2

theorem loop_malformed (f : List Char → Option (List Char)) (a u : List Char)
    {d : Char} {t : List Char}
    (h : u.dropWhile (fun c => c ≠ '$') = d :: t)
    (h2 : parse_identifier t = none) :
    resolve_path_loop f a u = .error (.unableToParseVariable (d :: t)) := by
  rw [resolve_path_loop.eq_def]
  split
  · next heq =>
      rw [h] at heq
      cases heq
  · next d' t' heq =>
      rw [h] at heq
      injection heq with hd ht
      subst hd ht
      split
      · next v' r' heq2 =>
          rw [h2] at heq2
          cases heq2
      · next heq2 => rfl
theorem resolve_path_loop_acc (f : List Char → Option (List Char))
    (acc u : List Char) :
    resolve_path_loop f acc u =
      (resolve_path_loop f [] u).map fun q => acc ++ q := by
  refine (resolve_path_loop.induct f
    (motive := fun _ u => ∀ a,
      resolve_path_loop f a u =
        (resolve_path_loop f [] u).map fun q => a ++ q)
    ?_ ?_ ?_ ?_) [] u acc
  · intro resolved u h a
    rw [loop_no_dollar f a u h, loop_no_dollar f [] u h]
    simp [Except.map]
  · intro resolved u d t h var rest h2 value h3 ih a
    rw [loop_subst f a u h h2 h3, loop_subst f [] u h h2 h3]
    rw [ih (a ++ List.takeWhile (fun c => decide (c ≠ '$')) u ++ value),
      ih ([] ++ List.takeWhile (fun c => decide (c ≠ '$')) u ++ value)]
    cases resolve_path_loop f [] rest with
    | ok q => simp [Except.map]
    | error e => simp [Except.map]
  · intro resolved u d t h var rest h2 h3 a
    rw [loop_missing f a u h h2 h3, loop_missing f [] u h h2 h3]
    simp [Except.map]
  · intro resolved u d t h h2 a
    rw [loop_malformed f a u h h2, loop_malformed f [] u h h2]
    simp [Except.map]

/-! ### Claims C5 and C6 — the path resolver -/

/-- C5: path resolution is a single non-recursive left-to-right pass — a
string without `$` resolves to itself; one resolved placeholder splices its
value verbatim and resumes after the placeholder's own text (so a `$NAME`
inside a substituted value is never resolved, as the `$A ↦ $B` example
shows). -/
theorem c5_resolution_single_pass :
    (∀ (s : List Char) (f : List Char → Option (List Char)),
      '$' ∉ s → resolve_path s f = .ok s) ∧
    (∀ (f : List Char → Option (List Char)) (a t v r val : List Char),
      '$' ∉ a → parse_identifier t = some (v, r) → f v = some val →
      resolve_path (a ++ '$' :: t) f =
        (resolve_path r f).map fun q => a ++ val ++ q) ∧
    resolve_path (str "./$A")
        (fun n => if n = str "A" then some (str "$B") else none) =
      .ok (str "./$B") := by
  refine ⟨?_, ?_, ?_⟩
  · intro s f hs
    have hdrop : s.dropWhile (fun c => c ≠ '$') = [] := by
      rw [List.dropWhile_eq_nil_iff]
      intro x hx
      simp
      exact fun he => hs (he ▸ hx)
    rw [resolve_path, loop_no_dollar f [] s hdrop]
    rfl
  · intro f a t v r val ha h2 h3
    have hmem : ∀ c ∈ a, (fun c => decide (c ≠ '$')) c = true := by
      intro c hc
      simp
      exact fun he => ha (he ▸ hc)
    have hdrop : (a ++ '$' :: t).dropWhile (fun c => c ≠ '$') = '$' :: t := by
      rw [List.dropWhile_append_of_pos hmem]
      simp [List.dropWhile_cons_of_neg]
    have htake : (a ++ '$' :: t).takeWhile (fun c => c ≠ '$') = a := by
      rw [List.takeWhile_append_of_pos hmem]
      simp [List.takeWhile_cons_of_neg]
    rw [resolve_path, loop_subst f [] (a ++ '$' :: t) hdrop h2 h3, htake]
    rw [resolve_path_loop_acc f ([] ++ a ++ val) r]
    rw [resolve_path]
    cases resolve_path_loop f [] r with
    | ok q => simp [Except.map]
    | error e => simp [Except.map]
  · rw [resolve_path,
      loop_subst (fun n => if n = str "A" then some (str "$B") else none)
        [] (str "./$A") (d := '$') (t := str "A") (v := str "A") (r := [])
        (w := str "$B") (by decide) (by decide) (by decide),
      loop_no_dollar _ _ [] (by decide)]
    exact congrArg Except.ok (by decide)
/-- C5 (witness): the general parts applied to concrete strings. -/
theorem c5_resolution_single_pass_witness :
    resolve_path (str "abc") (fun _ => none) = .ok (str "abc") ∧
    resolve_path (str "./" ++ '$' :: str "A.txt")
        (fun n => if n = str "A" then some (str "VAL") else none) =
      (resolve_path (str ".txt")
        (fun n => if n = str "A" then some (str "VAL") else none)).map
        (fun q => str "./" ++ str "VAL" ++ q) :=
  ⟨c5_resolution_single_pass.1 (str "abc") (fun _ => none) (by decide),
   c5_resolution_single_pass.2.1 _ (str "./") (str "A.txt") (str "A")
     (str ".txt") (str "VAL") (by decide) (by decide) (by decide)⟩

theorem parse_identifier_split {t v r : List Char}
    (h : parse_identifier t = some (v, r)) :
    t = v ++ r ∧ '$' ∉ v := by
  match t with
  | [] => simp [parse_identifier] at h
  | c :: cs =>
    simp only [parse_identifier] at h
    by_cases hc : idHead c
    · simp only [hc, if_pos, Option.some.injEq, Prod.mk.injEq] at h
      obtain ⟨hv, hr⟩ := h
      subst hv hr
      constructor
      · simp [List.takeWhile_append_dropWhile]
      · intro hmem
        simp only [List.mem_cons] at hmem
        rcases hmem with he | hmem
        · rw [← he] at hc
          simp [idHead] at hc
        · have := List.mem_takeWhile_imp hmem
          simp [idCont] at this
    · simp [hc] at h

theorem split_at_first_marker {p : Char} :
    ∀ (x a b t : List Char), p ∉ x → a ++ p :: b = x ++ p :: t →
      (a = x ∧ b = t) ∨ (∃ c, a = x ++ p :: c ∧ c ++ p :: b = t) := by
  intro x
  induction x with
  | nil =>
    intro a b t _ heq
    cases a with
    | nil =>
      simp at heq
      exact Or.inl ⟨rfl, heq⟩
    | cons y a' =>
      simp at heq
      obtain ⟨hy, hrest⟩ := heq
      exact Or.inr ⟨a', by simp [hy], hrest⟩
  | cons z x' ih =>
    intro a b t hp heq
    have hz : z ≠ p := by
      simp only [List.mem_cons, not_or] at hp
      exact fun he => hp.1 he.symm
    cases a with
    | nil =>
      simp at heq
      exact absurd heq.1.symm hz
    | cons y a' =>
      simp only [List.cons_append, List.cons.injEq] at heq
      obtain ⟨hy, hrest⟩ := heq
      have hx' : p ∉ x' := by
        simp only [List.mem_cons, not_or] at hp
        exact hp.2
      rcases ih a' b t hx' hrest with ⟨h1, h2⟩ | ⟨c, h1, h2⟩
      · exact Or.inl ⟨by rw [hy, h1], h2⟩
      · exact Or.inr ⟨c, by rw [hy, h1, List.cons_append], h2⟩

theorem shift_past_clean {p : Char} :
    ∀ (v c b r : List Char), p ∉ v → c ++ p :: b = v ++ r →
      ∃ e, c = v ++ e ∧ e ++ p :: b = r := by
  intro v
  induction v with
  | nil =>
    intro c b r _ heq
    exact ⟨c, by simp, by simpa using heq⟩
  | cons z v' ih =>
    intro c b r hp heq
    have hz : z ≠ p := by
      simp only [List.mem_cons, not_or] at hp
      exact fun he => hp.1 he.symm
    cases c with
    | nil =>
      simp at heq
      exact absurd heq.1.symm hz
    | cons y c' =>
      simp only [List.cons_append, List.cons.injEq] at heq
      obtain ⟨hy, hrest⟩ := heq
      have hv' : p ∉ v' := by
        simp only [List.mem_cons, not_or] at hp
        exact hp.2
      obtain ⟨e, h1, h2⟩ := ih c' b r hv' hrest
      exact ⟨e, by rw [hy, h1, List.cons_append], h2⟩
theorem takeWhile_no_dollar (u : List Char) :
    '$' ∉ u.takeWhile (fun c => c ≠ '$') := by
  intro hmem
  have := List.mem_takeWhile_imp hmem
  simp at this

theorem dropWhile_head_false {α : Type} {p : α → Bool} :
    ∀ {u : List α} {d : α} {t : List α}, u.dropWhile p = d :: t → p d = false := by
  intro u
  induction u with
  | nil => intro d t h; simp [List.dropWhile] at h
  | cons c cs ih =>
    intro d t h
    by_cases hc : p c
    · rw [List.dropWhile_cons_of_pos hc] at h
      exact ih h
    · rw [List.dropWhile_cons_of_neg hc] at h
      injection h with h1 _
      subst h1
      simpa using hc

theorem dropWhile_head_dollar {u : List Char} {d : Char} {t : List Char}
    (h : u.dropWhile (fun c => c ≠ '$') = d :: t) : d = '$' := by
  have := dropWhile_head_false h
  simpa using this

theorem resolve_ok_all_good (f : List Char → Option (List Char)) :
    ∀ (s : List Char) (q : List Char),
      resolve_path_loop f [] s = .ok q →
      ∀ a b, s = a ++ '$' :: b →
        ∃ v r val, parse_identifier b = some (v, r) ∧ f v = some val := by
  intro s
  refine (resolve_path_loop.induct f
    (motive := fun _ u => ∀ q, resolve_path_loop f [] u = .ok q →
      ∀ a b, u = a ++ '$' :: b →
        ∃ v r val, parse_identifier b = some (v, r) ∧ f v = some val)
    ?_ ?_ ?_ ?_) [] s
  · intro resolved u h q _ a b hab
    have hall : ∀ x ∈ u, x ≠ '$' := by
      have := List.dropWhile_eq_nil_iff.mp h
      intro x hx
      have hx' := this x hx
      simpa using hx'
    exfalso
    exact hall '$' (hab ▸ (List.mem_append.mpr (Or.inr (List.mem_cons_self _ _)))) rfl
  · intro resolved u d t h var rest h2 value h3 ih q hok a b hab
    have hd : d = '$' := dropWhile_head_dollar h
    subst hd
    have hu : u = u.takeWhile (fun c => c ≠ '$') ++ '$' :: t := by
      conv_lhs => rw [← List.takeWhile_append_dropWhile
        (p := fun c => decide (c ≠ '$')) (l := u)]
      rw [h]
    have hrest_ok : ∃ q', resolve_path_loop f [] rest = .ok q' := by
      rw [loop_subst f [] u h h2 h3,
        resolve_path_loop_acc f ([] ++ List.takeWhile (fun c => decide (c ≠ '$')) u ++ value) rest] at hok
      cases hre : resolve_path_loop f [] rest with
      | ok q' => exact ⟨q', rfl⟩
      | error e =>
        rw [hre] at hok
        simp [Except.map] at hok
    obtain ⟨q', hq'⟩ := hrest_ok
    have hsplit := parse_identifier_split h2
    obtain ⟨ht, hvnod⟩ := hsplit
    have heq : a ++ '$' :: b = u.takeWhile (fun c => c ≠ '$') ++ '$' :: t := by
      rw [← hab, ← hu]
    rcases split_at_first_marker (p := '$') (u.takeWhile (fun c => c ≠ '$'))
      a b t (takeWhile_no_dollar u) heq with ⟨ha, hb⟩ | ⟨c, ha, hc⟩
    · subst hb
      exact ⟨var, rest, value, h2, h3⟩
    · rw [ht] at hc
      obtain ⟨e, hce, he⟩ := shift_past_clean (p := '$') var c b rest hvnod hc
      exact ih q' hq' e b he.symm
  · intro resolved u d t h var rest h2 h3 q hok a b hab
    rw [loop_missing f [] u h h2 h3] at hok
    cases hok
  · intro resolved u d t h h2 q hok a b hab
    rw [loop_malformed f [] u h h2] at hok
    cases hok
theorem resolve_error_decomposition (f : List Char → Option (List Char)) :
    ∀ (s : List Char) (e : ResolveError),
      resolve_path_loop f [] s = .error e →
      (∃ a b, s = a ++ '$' :: b ∧
        (parse_identifier b = none ∨
          ∃ v r, parse_identifier b = some (v, r) ∧ f v = none)) ∧
      (∀ v, e = .missingVariable v →
        ∃ a b r, s = a ++ '$' :: b ∧ parse_identifier b = some (v, r) ∧
          f v = none) ∧
      (∀ w, e = .unableToParseVariable w →
        ∃ a t, s = a ++ w ∧ w = '$' :: t ∧ parse_identifier t = none) := by
  intro s
  refine (resolve_path_loop.induct f
    (motive := fun _ u => ∀ e, resolve_path_loop f [] u = .error e →
      (∃ a b, u = a ++ '$' :: b ∧
        (parse_identifier b = none ∨
          ∃ v r, parse_identifier b = some (v, r) ∧ f v = none)) ∧
      (∀ v, e = .missingVariable v →
        ∃ a b r, u = a ++ '$' :: b ∧ parse_identifier b = some (v, r) ∧
          f v = none) ∧
      (∀ w, e = .unableToParseVariable w →
        ∃ a t, u = a ++ w ∧ w = '$' :: t ∧ parse_identifier t = none))
    ?_ ?_ ?_ ?_) [] s
  · intro resolved u h e herr
    rw [loop_no_dollar f [] u h] at herr
    cases herr
  · intro resolved u d t h var rest h2 value h3 ih e herr
    have hd : d = '$' := dropWhile_head_dollar h
    subst hd
    have hrest_err : resolve_path_loop f [] rest = .error e := by
      rw [loop_subst f [] u h h2 h3,
        resolve_path_loop_acc f
          ([] ++ List.takeWhile (fun c => decide (c ≠ '$')) u ++ value)
          rest] at herr
      cases hre : resolve_path_loop f [] rest with
      | ok q' =>
        rw [hre] at herr
        simp [Except.map] at herr
      | error e' =>
        rw [hre] at herr
        simp [Except.map] at herr
        rw [herr]
    obtain ⟨tk, hTK⟩ : ∃ tk, List.takeWhile (fun c => decide (c ≠ '$')) u = tk :=
      ⟨_, rfl⟩
    have hu : u = tk ++ '$' :: t := by
      conv_lhs => rw [← List.takeWhile_append_dropWhile
        (p := fun c => decide (c ≠ '$')) (l := u)]
      rw [h, hTK]
    obtain ⟨ht, -⟩ := parse_identifier_split h2
    obtain ⟨ihdec, ihmiss, ihparse⟩ := ih e hrest_err
    refine ⟨?_, ?_, ?_⟩
    · obtain ⟨a1, b1, hab1, hbad⟩ := ihdec
      refine ⟨tk ++ '$' :: (var ++ a1), b1, ?_, hbad⟩
      rw [hu, ht, hab1]
      simp
    · intro v hv
      obtain ⟨a1, b1, r1, hab1, hpb1, hfv⟩ := ihmiss v hv
      refine ⟨tk ++ '$' :: (var ++ a1), b1, r1, ?_, hpb1, hfv⟩
      rw [hu, ht, hab1]
      simp
    · intro w hw
      obtain ⟨a1, t1, hab1, hwt, hpt⟩ := ihparse w hw
      refine ⟨tk ++ '$' :: (var ++ a1), t1, ?_, hwt, hpt⟩
      rw [hu, ht, hab1]
      simp
  · intro resolved u d t h var rest h2 h3 e herr
    have hd : d = '$' := dropWhile_head_dollar h
    subst hd
    obtain ⟨tk, hTK⟩ : ∃ tk, List.takeWhile (fun c => decide (c ≠ '$')) u = tk :=
      ⟨_, rfl⟩
    have hu : u = tk ++ '$' :: t := by
      conv_lhs => rw [← List.takeWhile_append_dropWhile
        (p := fun c => decide (c ≠ '$')) (l := u)]
      rw [h, hTK]
    rw [loop_missing f [] u h h2 h3] at herr
    injection herr with herr1
    refine ⟨?_, ?_, ?_⟩
    · exact ⟨tk, t, hu, Or.inr ⟨var, rest, h2, h3⟩⟩
    · intro v hv
      rw [← herr1] at hv
      injection hv with hvv
      subst hvv
      exact ⟨tk, t, rest, hu, h2, h3⟩
    · intro w hw
      rw [← herr1] at hw
      cases hw
  · intro resolved u d t h h2 e herr
    have hd : d = '$' := dropWhile_head_dollar h
    subst hd
    obtain ⟨tk, hTK⟩ : ∃ tk, List.takeWhile (fun c => decide (c ≠ '$')) u = tk :=
      ⟨_, rfl⟩
    have hu : u = tk ++ '$' :: t := by
      conv_lhs => rw [← List.takeWhile_append_dropWhile
        (p := fun c => decide (c ≠ '$')) (l := u)]
      rw [h, hTK]
    rw [loop_malformed f [] u h h2] at herr
    injection herr with herr1
    refine ⟨?_, ?_, ?_⟩
    · exact ⟨tk, t, hu, Or.inl h2⟩
    · intro v hv
      rw [← herr1] at hv
      cases hv
    · intro w hw
      rw [← herr1] at hw
      injection hw with hww
      subst hww
      exact ⟨tk, t, hu, rfl, h2⟩
/-- C6: path resolution fails, and fails only, when some `$` occurrence is
either not followed by a syntactically valid identifier or is followed by a
valid identifier whose lookup returns no value; the missing-variable failure
carries the offending variable name and the malformed-reference failure the
offending text (the `$` and everything after it). -/
theorem c6_failure_characterization :
    (∀ (s : List Char) (f : List Char → Option (List Char)),
      (∃ e, resolve_path s f = .error e) ↔
        ∃ a b, s = a ++ '$' :: b ∧
          (parse_identifier b = none ∨
            ∃ v r, parse_identifier b = some (v, r) ∧ f v = none)) ∧
    (∀ (s : List Char) (f : List Char → Option (List Char)) (v : List Char),
      resolve_path s f = .error (.missingVariable v) →
      ∃ a b r, s = a ++ '$' :: b ∧ parse_identifier b = some (v, r) ∧
        f v = none) ∧
    (∀ (s : List Char) (f : List Char → Option (List Char)) (w : List Char),
      resolve_path s f = .error (.unableToParseVariable w) →
      ∃ a t, s = a ++ w ∧ w = '$' :: t ∧ parse_identifier t = none) := by
  refine ⟨?_, ?_, ?_⟩
  · intro s f
    constructor
    · rintro ⟨e, herr⟩
      rw [resolve_path] at herr
      exact (resolve_error_decomposition f s e herr).1
    · rintro ⟨a, b, hab, hbad⟩
      cases hres : resolve_path s f with
      | error e => exact ⟨e, rfl⟩
      | ok q =>
        exfalso
        rw [resolve_path] at hres
        obtain ⟨v, r, val, hp, hf⟩ := resolve_ok_all_good f s q hres a b hab
        rcases hbad with hnone | ⟨v1, r1, hp1, hf1⟩
        · rw [hp] at hnone
          cases hnone
        · rw [hp] at hp1
          injection hp1 with hp1'
          injection hp1' with hv1 hr1
          subst hv1
          rw [hf] at hf1
          cases hf1
  · intro s f v herr
    rw [resolve_path] at herr
    exact (resolve_error_decomposition f s _ herr).2.1 v rfl
  · intro s f w herr
    rw [resolve_path] at herr
    exact (resolve_error_decomposition f s _ herr).2.2 w rfl

/-- C6 (witness): the payload part applied to `$UNKNOWN` under an empty
lookup, and the failure characterization applied to `$1`. -/
theorem c6_failure_characterization_witness :
    (∃ a b r, str "$UNKNOWN" = a ++ '$' :: b ∧
      parse_identifier b = some (str "UNKNOWN", r) ∧
      (fun _ => (none : Option (List Char))) (str "UNKNOWN") = none) ∧
    (∃ e, resolve_path (str "$1") (fun _ => none) = .error e) := by
  constructor
  · apply c6_failure_characterization.2.1 (str "$UNKNOWN") (fun _ => none)
      (str "UNKNOWN")
    rw [resolve_path]
    exact loop_missing (fun _ => none) [] (str "$UNKNOWN") (d := '$')
      (t := str "UNKNOWN") (v := str "UNKNOWN") (r := [])
      (by decide) (by decide) rfl
  · exact (c6_failure_characterization.1 (str "$1") (fun _ => none)).mpr
      ⟨[], str "1", rfl, Or.inl (by decide)⟩

/-! ### Claims C3 and C9 — the statement-list grammar -/

theorem sepListAux_acc_prefix {α : Type} (sep : Parser Unit) (f : Parser α) :
    ∀ (fuel : Nat) (i : Input) (acc : List α) (r : Input) (v : List α),
      sepListAux sep f fuel i acc = some (r, v) → ∃ w, v = acc ++ w := by
  intro fuel
  induction fuel with
  | zero => intro i acc r v h; simp [sepListAux] at h
  | succ n ih =>
    intro i acc r v h
    simp only [sepListAux] at h
    cases hsep : sep i with
    | none =>
      rw [hsep] at h
      injection h with h'
      injection h' with _ hv
      exact ⟨[], by simp [hv.symm]⟩
    | some s1 =>
      rw [hsep] at h
      obtain ⟨i1, u⟩ := s1
      by_cases hlen : i1.length = i.length
      · simp [hlen] at h
      · simp only [hlen, if_neg, if_false] at h
        cases hf : f i1 with
        | none =>
          rw [hf] at h
          injection h with h'
          injection h' with _ hv
          exact ⟨[], by simp [hv.symm]⟩
        | some s2 =>
          rw [hf] at h
          obtain ⟨i2, o⟩ := s2
          obtain ⟨w, hw⟩ := ih i2 (acc ++ [o]) r v h
          exact ⟨[o] ++ w, by simp [hw]⟩

theorem sepListAux_forall {α : Type} (sep : Parser Unit) (f : Parser α)
    (P : α → Prop) (hf : ∀ j r s, f j = some (r, s) → P s) :
    ∀ (fuel : Nat) (i : Input) (acc : List α) (r : Input) (v : List α),
      (∀ s ∈ acc, P s) → sepListAux sep f fuel i acc = some (r, v) →
      ∀ s ∈ v, P s := by
  intro fuel
  induction fuel with
  | zero => intro i acc r v _ h; simp [sepListAux] at h
  | succ n ih =>
    intro i acc r v hacc h
    simp only [sepListAux] at h
    cases hsep : sep i with
    | none =>
      rw [hsep] at h
      injection h with h'
      injection h' with _ hv
      rw [← hv]
      exact hacc
    | some s1 =>
      rw [hsep] at h
      obtain ⟨i1, u⟩ := s1
      by_cases hlen : i1.length = i.length
      · simp [hlen] at h
      · simp only [hlen, if_neg, if_false] at h
        cases hf1 : f i1 with
        | none =>
          rw [hf1] at h
          injection h with h'
          injection h' with _ hv
          rw [← hv]
          exact hacc
        | some s2 =>
          rw [hf1] at h
          obtain ⟨i2, o⟩ := s2
          refine ih i2 (acc ++ [o]) r v ?_ h
          intro s hs
          rcases List.mem_append.mp hs with hs | hs
          · exact hacc s hs
          · rw [List.mem_singleton.mp hs]
            exact hf i1 i2 o hf1

theorem separated_list1_ne_nil {α : Type} {sep : Parser Unit} {f : Parser α}
    {i r : Input} {v : List α} (h : separated_list1 sep f i = some (r, v)) :
    v ≠ [] := by
  simp only [separated_list1] at h
  cases hf : f i with
  | none => rw [hf] at h; cases h
  | some s1 =>
    rw [hf] at h
    obtain ⟨i1, o⟩ := s1
    obtain ⟨w, hw⟩ := sepListAux_acc_prefix sep f (i1.length + 1) i1 [o] r v h
    rw [hw]
    simp

theorem separated_list1_forall {α : Type} (sep : Parser Unit) (f : Parser α)
    (P : α → Prop) (hf : ∀ j r s, f j = some (r, s) → P s)
    {i r : Input} {v : List α} (h : separated_list1 sep f i = some (r, v)) :
    ∀ s ∈ v, P s := by
  simp only [separated_list1] at h
  cases hf1 : f i with
  | none => rw [hf1] at h; cases h
  | some s1 =>
    rw [hf1] at h
    obtain ⟨i1, o⟩ := s1
    refine sepListAux_forall sep f P hf (i1.length + 1) i1 [o] r v ?_ h
    intro s hs
    rw [List.mem_singleton.mp hs]
    exact hf i i1 o hf1
theorem function_name_from_multikeep {i r : Input} {s : DefineFunctionStatement}
    (h : function i = some (r, s)) :
    ∃ i3 i4, multikeep i3 = some (i4, s.name) := by
  simp only [function, Option.bind_eq_bind, Option.bind_eq_some] at h
  obtain ⟨⟨i1, comments⟩, h1, h⟩ := h
  obtain ⟨⟨i2, u2⟩, h2, h⟩ := h
  obtain ⟨⟨i3, u3⟩, h3, h⟩ := h
  obtain ⟨⟨i4, name⟩, h4, h⟩ := h
  obtain ⟨⟨i5, u5⟩, h5, h⟩ := h
  obtain ⟨⟨i6, args⟩, h6, h⟩ := h
  obtain ⟨⟨i7, u7⟩, h7, h⟩ := h
  obtain ⟨⟨i8, u8⟩, h8, h⟩ := h
  injection h with h'
  injection h' with hr hs
  subst hs
  exact ⟨i3, i4, h4⟩

theorem function_name_ne_nil {i r : Input} {s : DefineFunctionStatement}
    (h : function i = some (r, s)) : s.name ≠ [] := by
  obtain ⟨i3, i4, h4⟩ := function_name_from_multikeep h
  exact separated_list1_ne_nil h4

/-- C9: every FunctionStatement produced by a successful parse — of a single
statement or of a statement list — has a nonempty name path. -/
theorem c9_nonempty_path :
    (∀ (i r : Input) (s : DefineFunctionStatement),
      function i = some (r, s) → s.name ≠ []) ∧
    (∀ (i r : Input) (v : List DefineFunctionStatement),
      functions i = some (r, v) → ∀ s ∈ v, s.name ≠ []) := by
  constructor
  · intro i r s h
    exact function_name_ne_nil h
  · intro i r v h s hs
    simp only [functions, Option.bind_eq_bind, Option.bind_eq_some] at h
    obtain ⟨⟨i1, u1⟩, h1, h⟩ := h
    obtain ⟨⟨i2, v2⟩, h2, h⟩ := h
    obtain ⟨⟨i3, u3⟩, h3, h⟩ := h
    injection h with h'
    injection h' with hr hv
    subst hv
    exact separated_list1_forall colons function (fun s => s.name ≠ [])
      (fun j r s hj => function_name_ne_nil hj) h2 s hs

/-- C9 (witness): the nonemptiness applied to a concrete parse. -/
theorem c9_nonempty_path_witness :
    (DefineFunctionStatement.mk [] [str "a"] []).name ≠ [] :=
  c9_nonempty_path.1 (str "DEFINE FUNCTION fn::a() \x7b\x7d") []
    ⟨[], [str "a"], []⟩ rfl

/-- C3: the statement-list grammar parses one or more statements separated by
semicolon runs amid optional whitespace/comments and demands a final
terminator, and the top-level entry point rejects any input with leftover
non-whitespace/non-comment text, yielding no partial result. -/
theorem c3_statement_list :
    (∀ (i r : Input) (v : List DefineFunctionStatement),
      functions i = some (r, v) → v ≠ []) ∧
    (∀ (i r : Input) (v : List DefineFunctionStatement),
      parse_surrealql_contents i = some (r, v) → r = []) ∧
    functions (str "-- doc\nDEFINE FUNCTION fn::a() \x7b\x7d /* c */ ;;; -- d\n DEFINE FUNCTION fn::b() \x7b\x7d;") =
      some ([], [⟨[str "doc"], [str "a"], []⟩, ⟨[], [str "b"], []⟩]) ∧
    functions (str "DEFINE FUNCTION fn::a() \x7b\x7d") = none ∧
    parse_surrealql_contents (str "DEFINE FUNCTION fn::a() \x7b\x7d; -- done") =
      some ([], [⟨[], [str "a"], []⟩]) ∧
    parse_surrealql_contents (str "DEFINE FUNCTION fn::a() \x7b\x7d; x") = none := by
  refine ⟨?_, ?_, rfl, rfl, rfl, rfl⟩
  · intro i r v h
    simp only [functions, Option.bind_eq_bind, Option.bind_eq_some] at h
    obtain ⟨⟨i1, u1⟩, h1, h⟩ := h
    obtain ⟨⟨i2, v2⟩, h2, h⟩ := h
    obtain ⟨⟨i3, u3⟩, h3, h⟩ := h
    injection h with h'
    injection h' with hr hv
    subst hv
    exact separated_list1_ne_nil h2
  · intro i r v h
    simp only [parse_surrealql_contents, all_consuming] at h
    cases hf : functions i with
    | none => rw [hf] at h; cases h
    | some s1 =>
      rw [hf] at h
      obtain ⟨rest, v1⟩ := s1
      by_cases hre : rest.isEmpty
      · simp [hre] at h
        exact h.1
      · simp [hre] at h

/-- C3 (witness): the general parts applied to a concrete parse. -/
theorem c3_statement_list_witness :
    ([⟨[], [str "a"], []⟩] : List DefineFunctionStatement) ≠ [] ∧
    ([] : Input) = [] :=
  ⟨c3_statement_list.1 (str "DEFINE FUNCTION fn::a() \x7b\x7d;") []
      [⟨[], [str "a"], []⟩] rfl,
    c3_statement_list.2.1 (str "DEFINE FUNCTION fn::a() \x7b\x7d;") []
      [⟨[], [str "a"], []⟩] rfl⟩

/-! ### Claim C2 — identifier encode/decode round trip -/

theorem replaceAll_append (a b : List Char) (r : Char) (e : List Char) :
    replaceAll (a ++ b) r e = replaceAll a r e ++ replaceAll b r e := by
  simp [replaceAll]

theorem replaceAll_of_not_mem {a : List Char} {r : Char} {e : List Char}
    (h : r ∉ a) : replaceAll a r e = a := by
  induction a with
  | nil => rfl
  | cons c cs ih =>
    simp only [List.mem_cons, not_or] at h
    have hc : ¬(c = r) := fun he => h.1 he.symm
    simp only [replaceAll, List.flatMap_cons, if_neg hc]
    have := ih h.2
    simp only [replaceAll] at this
    rw [this]
    rfl

theorem replaceAll_cons_hit (s : List Char) (r : Char) (e : List Char) :
    replaceAll (r :: s) r e = e ++ replaceAll s r e := by
  simp [replaceAll]
/-- The transform stops (successfully) in front of an unescaped backtick. -/
theorem escTrans_stop (rest acc : List Char) (fuel : Nat) (h : 1 ≤ fuel) :
    escTransAux backtickEscNul backtickEscape fuel (backtick :: rest) acc =
      some (backtick :: rest, acc) := by
  cases fuel with
  | zero => cases h
  | succ m =>
    have h1 : backtickEscNul backtick = true := by decide
    have h2 : ¬(backtick = '\\') := by decide
    simp [escTransAux, h1, h2]

/-- Decoding inverts the backtick encoding on backslash- and NUL-free
content: the escaped transform consumes the rewritten body, rebuilding the
original string, and stops at the closing backtick. -/
theorem escTrans_decode :
    ∀ (n : Nat) (s : List Char), s.length ≤ n → '\\' ∉ s → nulChar ∉ s →
    ∀ (rest acc : List Char) (fuel : Nat),
      (replaceAll s backtick ['\\', backtick] ++ backtick :: rest).length + 1 ≤ fuel →
      escTransAux backtickEscNul backtickEscape fuel
        (replaceAll s backtick ['\\', backtick] ++ backtick :: rest) acc =
        some (backtick :: rest, acc ++ s) := by
  intro n
  induction n with
  | zero =>
    intro s hlen _ _ rest acc fuel hfuel
    have hs : s = [] := List.length_eq_zero.mp (Nat.le_zero.mp hlen)
    subst hs
    simp only [replaceAll, List.flatMap_nil, List.nil_append, List.append_nil]
    exact escTrans_stop rest acc fuel (by omega)
  | succ n ih =>
    intro s hlen hbs hnul rest acc fuel hfuel
    cases s with
    | nil =>
      simp only [replaceAll, List.flatMap_nil, List.nil_append, List.append_nil]
      exact escTrans_stop rest acc fuel (by omega)
    | cons c s' =>
      by_cases hc : c = backtick
      · subst hc
        have hbs' : '\\' ∉ s' := fun hm => hbs (List.mem_cons_of_mem _ hm)
        have hnul' : nulChar ∉ s' := fun hm => hnul (List.mem_cons_of_mem _ hm)
        rw [replaceAll_cons_hit]
        have hshape :
            (['\\', backtick] ++ replaceAll s' backtick ['\\', backtick]) ++
              backtick :: rest =
            '\\' :: backtick ::
              (replaceAll s' backtick ['\\', backtick] ++ backtick :: rest) := by
          simp
        rw [hshape]
        cases fuel with
        | zero => simp at hfuel
        | succ m =>
          have hx1 : (!backtickEscNul '\\') = false := by decide
          have hx2 : backtickEscape backtick = some backtick := by decide
          simp only [escTransAux, hx1, Bool.false_eq_true, if_false,
            if_pos rfl, hx2]
          have hlen' : s'.length ≤ n := by
            simp at hlen
            omega
          have hfuel' :
              (replaceAll s' backtick ['\\', backtick] ++ backtick :: rest).length + 1 ≤ m := by
            rw [replaceAll_cons_hit] at hfuel
            simp at hfuel ⊢
            omega
          rw [ih s' hlen' hbs' hnul' rest (acc ++ [backtick]) m hfuel']
          simp
      · have hcb : c ≠ '\\' := by
          intro he
          exact hbs (by rw [he]; exact List.mem_cons_self _ _)
        have hcn : c ≠ nulChar := by
          intro he
          exact hnul (by rw [he]; exact List.mem_cons_self _ _)
        have hexc : backtickEscNul c = false := by
          simp [backtickEscNul, hc, hcb, hcn]
        have hbs' : '\\' ∉ s' := fun hm => hbs (List.mem_cons_of_mem _ hm)
        have hnul' : nulChar ∉ s' := fun hm => hnul (List.mem_cons_of_mem _ hm)
        have hpc : (!backtickEscNul c) = true := by
          simp [hexc]
        obtain ⟨u2, hu2⟩ : ∃ u2,
            s'.takeWhile (fun x => !backtickEscNul x) = u2 := ⟨_, rfl⟩
        obtain ⟨s2, hs2⟩ : ∃ s2,
            s'.dropWhile (fun x => !backtickEscNul x) = s2 := ⟨_, rfl⟩
        have hsplit : c :: s' = (c :: u2) ++ s2 := by
          conv_lhs => rw [← List.takeWhile_append_dropWhile
            (p := fun x => !backtickEscNul x) (l := c :: s')]
          rw [List.takeWhile_cons_of_pos
              (p := fun x => !backtickEscNul x) (a := c) (l := s') hpc,
            List.dropWhile_cons_of_pos
              (p := fun x => !backtickEscNul x) (a := c) (l := s') hpc,
            hu2, hs2]
        have hmem_u : ∀ x ∈ c :: u2, (fun x => !backtickEscNul x) x = true := by
          intro x hx
          rcases List.mem_cons.mp hx with he | hx2
          · rw [he]; exact hpc
          · rw [← hu2] at hx2
            exact List.mem_takeWhile_imp (p := fun x => !backtickEscNul x) hx2
        have hnb_u : backtick ∉ c :: u2 := by
          intro hm
          have := hmem_u backtick hm
          simp [backtickEscNul] at this
        have hshape2 : s2 = [] ∨ ∃ s3, s2 = backtick :: s3 := by
          cases hcase : s2 with
          | nil => exact Or.inl rfl
          | cons d s3 =>
            have hdf : (!backtickEscNul d) = false := by
              rw [hcase] at hs2
              exact dropWhile_head_false (p := fun x => !backtickEscNul x) hs2
            have hdm : d ∈ s' := by
              have hsuf := List.dropWhile_suffix (l := s')
                (fun x => !backtickEscNul x)
              rw [hs2, hcase] at hsuf
              exact hsuf.subset (List.mem_cons_self _ _)
            have hdb : d ≠ '\\' := fun he => hbs' (he ▸ hdm)
            have hdn : d ≠ nulChar := fun he => hnul' (he ▸ hdm)
            have hdbt : d = backtick := by
              simp [backtickEscNul, hdb, hdn] at hdf
              exact hdf
            subst hdbt
            exact Or.inr ⟨s3, rfl⟩
        have hE : replaceAll (c :: s') backtick ['\\', backtick] =
            (c :: u2) ++ replaceAll s2 backtick ['\\', backtick] := by
          rw [hsplit, replaceAll_append, replaceAll_of_not_mem hnb_u]
        have hinner_take :
            (replaceAll s2 backtick ['\\', backtick] ++
              backtick :: rest).takeWhile (fun x => !backtickEscNul x) = [] := by
          rcases hshape2 with he | ⟨s3, he⟩
          · rw [he]
            simp only [replaceAll, List.flatMap_nil, List.nil_append]
            rw [List.takeWhile_cons_of_neg]
            simp [backtickEscNul]
          · rw [he, replaceAll_cons_hit]
            rw [List.cons_append, List.cons_append]
            rw [List.takeWhile_cons_of_neg]
            simp [backtickEscNul]
        have hinner_drop :
            (replaceAll s2 backtick ['\\', backtick] ++
              backtick :: rest).dropWhile (fun x => !backtickEscNul x) =
            replaceAll s2 backtick ['\\', backtick] ++ backtick :: rest := by
          rcases hshape2 with he | ⟨s3, he⟩
          · rw [he]
            simp only [replaceAll, List.flatMap_nil, List.nil_append]
            rw [List.dropWhile_cons_of_neg]
            simp [backtickEscNul]
          · rw [he, replaceAll_cons_hit]
            rw [List.cons_append, List.cons_append]
            rw [List.dropWhile_cons_of_neg]
            simp [backtickEscNul]
        have hinput : replaceAll (c :: s') backtick ['\\', backtick] ++
            backtick :: rest =
            c :: (u2 ++ (replaceAll s2 backtick ['\\', backtick] ++
              backtick :: rest)) := by
          rw [hE]
          simp
        rw [hinput] at hfuel ⊢
        cases fuel with
        | zero => simp at hfuel
        | succ m =>
          have hpt : (!backtickEscNul c) = true := by simp [hexc]
          simp only [escTransAux, hpt, if_true]
          have hback : c :: (u2 ++ (replaceAll s2 backtick ['\\', backtick] ++
              backtick :: rest)) =
              (c :: u2) ++ (replaceAll s2 backtick ['\\', backtick] ++
              backtick :: rest) := by simp
          rw [hback, List.takeWhile_append_of_pos hmem_u,
            List.dropWhile_append_of_pos hmem_u, hinner_take, hinner_drop,
            List.append_nil]
          have hlen2 : s2.length ≤ n := by
            have := congrArg List.length hsplit
            simp at this hlen
            omega
          have hbs2 : '\\' ∉ s2 := by
            intro hm
            apply hbs'
            rw [← hs2] at hm
            exact (List.dropWhile_suffix _).subset hm
          have hnul2 : nulChar ∉ s2 := by
            intro hm
            apply hnul'
            rw [← hs2] at hm
            exact (List.dropWhile_suffix _).subset hm
          have hfuel2 : (replaceAll s2 backtick ['\\', backtick] ++
              backtick :: rest).length + 1 ≤ m := by
            simp at hfuel ⊢
            omega
          rw [ih s2 hlen2 hbs2 hnul2 rest (acc ++ (c :: u2)) m hfuel2]
          rw [hsplit]
          simp
/-- C2 (amended): encoding a bare identifier (all ASCII
letters/digits/underscore, not all digits) is the identity and decodes to
itself; every string containing at least one character outside that bare
class is encoded backtick-quoted with embedded backticks escaped, and —
provided it contains no backslash and no NUL — decoding the encoding yields
the string again. -/
theorem c2_roundtrip :
    (∀ s : List Char, s.all val_char = true → s.all Char.isDigit = false →
      escape_ident s = s ∧ ident_raw s = some ([], s)) ∧
    (∀ s : List Char, s.all val_char = false →
      escape_ident s =
        backtick :: replaceAll s backtick ['\\', backtick] ++ [backtick]) ∧
    (∀ s : List Char, s.all val_char = false → '\\' ∉ s → nulChar ∉ s →
      ident_raw (escape_ident s) = some ([], s)) := by
  refine ⟨?_, ?_, ?_⟩
  · intro s h1 h2
    have henc : escape_ident s = s := by
      simp [escape_ident, escape_numeric, h1, h2]
    refine ⟨henc, ?_⟩
    have hne : s ≠ [] := by
      intro he
      rw [he] at h2
      simp at h2
    have htake : s.takeWhile val_char = s :=
      List.takeWhile_eq_self_iff.mpr (by simpa using List.all_eq_true.mp h1)
    have hdrop : s.dropWhile val_char = [] :=
      List.dropWhile_eq_nil_iff.mpr (by simpa using List.all_eq_true.mp h1)
    have hse : s.isEmpty = false := by
      cases s with
      | nil => exact absurd rfl hne
      | cons a t => rfl
    have hdef : ident_default s = some ([], s) := by
      unfold ident_default take_while1
      rw [htake, hdrop]
      simp [hse]
    simp [ident_raw, pOr, hdef]
  · intro s h1
    simp [escape_ident, escape_numeric, h1]
  · intro s h1 hbs hnul
    have henc : escape_ident s =
        backtick :: (replaceAll s backtick ['\\', backtick] ++ [backtick]) := by
      simp [escape_ident, escape_numeric, h1]
    have hvb : val_char backtick = false := by decide
    have hdef : ident_default (escape_ident s) = none := by
      rw [henc]
      simp [ident_default, take_while1, List.takeWhile_cons_of_neg, hvb,
        List.isEmpty]
    have hone : [backtick] = backtick :: ([] : List Char) := rfl
    have het : escaped_transform backtickEscNul backtickEscape
        (replaceAll s backtick ['\\', backtick] ++ [backtick]) =
        some ([backtick], s) := by
      unfold escaped_transform
      rw [hone]
      rw [escTrans_decode s.length s (Nat.le_refl _) hbs hnul [] []
        ((replaceAll s backtick ['\\', backtick] ++ backtick :: []).length + 1)
        (Nat.le_refl _)]
      simp
    have hbt : ident_backtick (escape_ident s) = some ([], s) := by
      rw [henc]
      simp [ident_backtick, pChar, het]
    simp [ident_raw, pOr, hdef, hbt]

/-- C2 (counterexample): the claim promises `decode(encode(s)) = s` for
every string with a character outside the bare class, but the encoder
escapes only backticks while the decoder interprets backslash escapes: the
string `a\b` encodes to `` `a\b` ``, which decodes to `a<backspace>`, not
`a\b`. -/
theorem c2_backslash_not_escaped :
    (str "a\\b").all val_char = false ∧
    ident_raw (escape_ident (str "a\\b")) = some ([], str "a\x08") ∧
    ident_raw (escape_ident (str "a\\b")) ≠ some ([], str "a\\b") := by
  refine ⟨by decide, by decide, by decide⟩

/-- C2 (witness): the amended round-trip at the concrete strings `abc`
(bare) and `has space` (quoted). -/
theorem c2_roundtrip_witness :
    (escape_ident (str "abc") = str "abc" ∧
      ident_raw (str "abc") = some ([], str "abc")) ∧
    escape_ident (str "has space") =
      backtick :: replaceAll (str "has space") backtick ['\\', backtick] ++
        [backtick] ∧
    ident_raw (escape_ident (str "has space")) = some ([], str "has space") :=
  ⟨c2_roundtrip.1 (str "abc") (by decide) (by decide),
    c2_roundtrip.2.1 (str "has space") (by decide),
    c2_roundtrip.2.2 (str "has space") (by decide) (by decide) (by decide)⟩

end SurrealFns
